import Mathlib

/-!
# Verification of the edge-lint rule-execution engine

Shallow embedding of the engine of the `edge-lint` repository:

* the fix engine (`fixer.ts`): `applyFix`, `applyFixes`,
  `getNonOverlappingFixes`, and the gap-backfilling merge
  `RuleContext._mergeFixesForMessage` (`rule-context.ts`);
* the linting orchestrator (`linter.ts`): `Linter.verify`,
  `Linter.verifyAndFix`, `Linter._normalizeSeverity`;
* the message templating `RuleContext._formatMessage` (`rule-context.ts`);
* the source index `SourceCode.getRange` and its helpers (`source-code.ts`).

Source text is modelled as `List Char` (JavaScript strings by code unit);
byte offsets are `Nat`.  JavaScript's `Array.prototype.sort` is stable, so
every `.sort(comparator)` in the source is embedded as Mathlib's
`List.insertionSort` with the corresponding non-strict total relation,
which is likewise stable.
-/

namespace EdgeLint

/-- A text edit: absolute offset range `[start, end)` in the current source
plus replacement text (`Fix` in `types/index.ts`). -/
structure Fix where
  range : Nat × Nat
  text : List Char
deriving DecidableEq, Repr

/-- The comparator `(a, b) => a.range[0] - b.range[0]` used by the fixer's
ascending sorts, as a non-strict relation (stable-sort embedding). -/
def fixLe (a b : Fix) : Prop := a.range.1 ≤ b.range.1

instance : DecidableRel fixLe := fun a b => inferInstanceAs (Decidable (a.range.1 ≤ b.range.1))

instance : IsTotal Fix fixLe := ⟨fun a b => Nat.le_total a.range.1 b.range.1⟩

instance : IsTrans Fix fixLe := ⟨fun _ _ _ => Nat.le_trans⟩

/-- The comparator `(a, b) => b.range[0] - a.range[0]` (descending sort used
by `applyFixes`), as a non-strict relation. -/
def fixGe (a b : Fix) : Prop := b.range.1 ≤ a.range.1

instance : DecidableRel fixGe := fun a b => inferInstanceAs (Decidable (b.range.1 ≤ a.range.1))

/-- `source.slice(a, b)` for `0 ≤ a ≤ b` (JavaScript `String.prototype.slice`
clamps out-of-range indices, exactly like `drop`/`take`). -/
def sliceList (l : List Char) (a b : Nat) : List Char :=
  (l.drop a).take (b - a)

/-- `applyFix` from `fixer.ts`:
`source.slice(0, fix.range[0]) + fix.text + source.slice(fix.range[1])`. -/
def applyFix (source : List Char) (fix : Fix) : List Char :=
  source.take fix.range.1 ++ fix.text ++ source.drop fix.range.2

/-- `applyFixes` from `fixer.ts`: sort by start descending (stable), then
splice one by one against the already-rewritten text. -/
def applyFixes (source : List Char) (fixes : List Fix) : List Char :=
  match fixes with
  | [] => source
  | _ =>
    let sorted := List.insertionSort fixGe fixes
    sorted.foldl applyFix source

/-- The keep-loop of `getNonOverlappingFixes`: keep a fix iff its start is
`≥ lastEnd`, updating `lastEnd` to the kept fix's end. -/
def keepNonOverlapping : Nat → List Fix → List Fix
  | _, [] => []
  | lastEnd, f :: fs =>
    if lastEnd ≤ f.range.1 then f :: keepNonOverlapping f.range.2 fs
    else keepNonOverlapping lastEnd fs

/-- `getNonOverlappingFixes` from `fixer.ts`: sort by start ascending
(stable), then keep first-wins.  The TypeScript initialises `lastEnd` to
`-Infinity`, so the first sorted fix is always kept; the embedding makes
that explicit by splitting off the head. -/
def getNonOverlappingFixes (fixes : List Fix) : List Fix :=
  match List.insertionSort fixLe fixes with
  | [] => []
  | f :: fs => f :: keepNonOverlapping f.range.2 fs

/-- The text-accumulation loop of `RuleContext._mergeFixesForMessage`
(`rule-context.ts`): walk the sorted fixes, backfilling each gap
`(lastEnd, fix.start)` from the original source text. -/
def mergeLoop (sourceText : List Char) : Nat → List Char → List Fix → List Char
  | _, acc, [] => acc
  | lastEnd, acc, f :: fs =>
    let acc1 := if lastEnd < f.range.1 then acc ++ sliceList sourceText lastEnd f.range.1 else acc
    mergeLoop sourceText f.range.2 (acc1 ++ f.text) fs

/-- `RuleContext._mergeFixesForMessage` from `rule-context.ts`: `none` on an
empty list, single fix passes through, otherwise sort by start (stable) and
merge into one fix spanning `[first.start, last.end)` with gap backfill. -/
def mergeFixesForMessage (sourceText : List Char) (fixes : List Fix) : Option Fix :=
  match fixes with
  | [] => none
  | [f] => some f
  | f1 :: f2 :: rest =>
    match List.insertionSort fixLe (f1 :: f2 :: rest) with
    | [] => none
    | first :: others =>
      some { range := (first.range.1, (List.getLastD others first).range.2),
             text := mergeLoop sourceText first.range.1 [] (first :: others) }

/-! ## Linting orchestrator (`linter.ts`)

Rule execution is abstracted: in the TypeScript, a rule is run by building a
`RuleContext`, calling `rule.create(context)`, traversing the token tree,
and finally reading `context.getMessages()`.  The whole of that is modelled
as one opaque function from (source, tokens, normalized severity) to a
`RuleOutcome`: the list of messages the context accumulated, plus `some e`
when `create` or a visitor callback threw (`e` being the thrown error's
optional `.message`).  Crucially the *decision* of what `verify` pushes —
the accumulated messages on success, one synthetic diagnostic on a throw —
is taken in `runRuleOutcome` below, mirroring the `try`/`catch` in
`Linter.verify`. -/

/-- A suggestion: description plus a fix not auto-applied. -/
structure Suggestion where
  desc : String
  fix : Fix
deriving DecidableEq, Repr

/-- `LintMessage` from `types/index.ts`.  Fields absent from a TypeScript
object literal are `none`. -/
structure LintMessage where
  ruleId : String
  severity : Nat
  message : String
  line : Nat
  column : Nat
  endLine : Option Nat := none
  endColumn : Option Nat := none
  fix : Option Fix := none
  suggestions : Option (List Suggestion) := none
deriving DecidableEq, Repr

/-- The location-bearing error thrown by the external `edge-lexer`
tokenizer: optional `message`, `line`, `col` fields. -/
structure LexError where
  message : Option String := none
  line : Option Nat := none
  col : Option Nat := none
deriving DecidableEq, Repr

/-- A configured severity value: a number or a string
(`Severity` from `types/index.ts`). -/
inductive Severity where
  | num (n : Nat)
  | str (s : String)
deriving DecidableEq, Repr

/-- `Linter._normalizeSeverity`: numbers pass through; `"off"`/`"warn"`/
`"error"` map to 0/1/2; any other string falls to the `default` branch, 0.
The function is total, so it can never throw. -/
def normalizeSeverity : Severity → Nat
  | .num n => n
  | .str s => if s = "off" then 0 else if s = "warn" then 1 else if s = "error" then 2 else 0

/-- Outcome of running one rule (create + traversal + context read-back):
the messages the context accumulated, and `some e` when an exception was
thrown (with `e` the error's optional `.message`). -/
structure RuleOutcome where
  reported : List LintMessage
  error : Option (Option String) := none

/-- The synthetic diagnostic `Linter.verify` pushes when a rule throws:
`Rule "<id>" threw an error: <message ?? 'Unknown error'>`, severity 2,
line 1, column 0. -/
def ruleErrorMessage (ruleId : String) (errMsg : Option String) : LintMessage :=
  { ruleId := ruleId
    severity := 2
    message := "Rule \"" ++ ruleId ++ "\" threw an error: " ++ errMsg.getD "Unknown error"
    line := 1
    column := 0 }

/-- The `try`/`catch` around one rule in `Linter.verify`: on success push
the context's accumulated messages, on a throw discard them and push the
single synthetic diagnostic. -/
def runRuleOutcome (ruleId : String) (outcome : RuleOutcome) : List LintMessage :=
  match outcome.error with
  | none => outcome.reported
  | some errMsg => [ruleErrorMessage ruleId errMsg]

/-- One entry of the `for (const [ruleId, ruleConfig] of … rules)` loop in
`Linter.verify`: unknown rule ids are skipped, severity 0 skips the rule,
otherwise the rule runs and its outcome is converted by `runRuleOutcome`. -/
def ruleContribution {τ : Type} (ruleImpls : String → Option (String → τ → Nat → RuleOutcome))
    (source : String) (tokens : τ) (entry : String × Severity) : List LintMessage :=
  match ruleImpls entry.1 with
  | none => []
  | some impl =>
    let sev := normalizeSeverity entry.2
    if sev = 0 then []
    else runRuleOutcome entry.1 (impl source tokens sev)

/-- The final comparator of `Linter.verify`
(`a.line - b.line`, then `a.column - b.column`) as a non-strict relation. -/
def msgLe (a b : LintMessage) : Prop :=
  a.line < b.line ∨ (a.line = b.line ∧ a.column ≤ b.column)

instance : DecidableRel msgLe := fun a b =>
  inferInstanceAs (Decidable (a.line < b.line ∨ (a.line = b.line ∧ a.column ≤ b.column)))

instance : IsTotal LintMessage msgLe :=
  ⟨fun a b => by unfold msgLe; omega⟩

instance : IsTrans LintMessage msgLe :=
  ⟨fun a b c hab hbc => by unfold msgLe at *; omega⟩

/-- The `messages.sort(…)` at the end of `Linter.verify` (stable). -/
def sortMessages (l : List LintMessage) : List LintMessage :=
  List.insertionSort msgLe l

/-- The single diagnostic `Linter.verify` synthesizes when tokenization
throws: rule id `"edge-syntax-error"`, severity 2, `err.message ?? 'Syntax
error'`, `err.line ?? 1`, `err.col ?? 0`. -/
def syntaxErrorMessage (err : LexError) : LintMessage :=
  { ruleId := "edge-syntax-error"
    severity := 2
    message := err.message.getD "Syntax error"
    line := err.line.getD 1
    column := err.col.getD 0 }

/-- `Linter.verify` over a merged config.  `tokenize` is the external
tokenizer for a fixed filename and parser options (`Except.error` models a
throw); `ruleImpls` is the rule registry with rule execution abstracted as
above; `configRules` is `Object.entries(mergedConfig.rules)` in insertion
order, each paired with its configured severity (rule options, which only
feed the abstracted rule execution, are folded into `ruleImpls`). -/
def verify {τ : Type} (tokenize : String → Except LexError τ)
    (ruleImpls : String → Option (String → τ → Nat → RuleOutcome))
    (configRules : List (String × Severity)) (source : String) : List LintMessage :=
  match tokenize source with
  | .error err => [syntaxErrorMessage err]
  | .ok tokens =>
    sortMessages (configRules.flatMap (ruleContribution ruleImpls source tokens))

/-- `LintResult` from `types/index.ts` (the return shape of
`verifyAndFix`).  `output` is `none` when the TypeScript leaves the field
`undefined`. -/
structure LintResult where
  filename : String
  messages : List LintMessage
  errorCount : Nat
  warningCount : Nat
  fixableErrorCount : Nat
  fixableWarningCount : Nat
  source : String
  output : Option String
deriving DecidableEq, Repr

/-- `applyFixes` lifted to `String` sources (the linter passes the whole
source string). -/
def applyFixesStr (source : String) (fixes : List Fix) : String :=
  String.mk (applyFixes source.toList fixes)

/-- The `for (let i = 0; i < MAX_ITERATIONS; i++)` loop of
`Linter.verifyAndFix`, with the remaining iteration count as fuel.  State:
current source, the `fixed` flag, and the `messages` variable as last
assigned (only relevant when the loop exits by exhausting the cap). -/
def fixLoop (v : String → List LintMessage) :
    Nat → String → Bool → List LintMessage → String × Bool × List LintMessage
  | 0, src, fixed, msgs => (src, fixed, msgs)
  | n + 1, src, fixed, _ =>
    let messages := v src
    let fixableMessages := messages.filter (fun m => m.fix.isSome)
    if fixableMessages = [] then (src, fixed, messages)
    else
      let fixes := getNonOverlappingFixes (fixableMessages.filterMap (fun m => m.fix))
      if fixes = [] then (src, fixed, messages)
      else fixLoop v n (applyFixesStr src fixes) true messages

/-- `Linter.verifyAndFix`: iterate `fixLoop` up to `MAX_ITERATIONS = 10`
rounds, re-verify once more if any fixing occurred, and package the
result.  `output` is set only if `fixed`. -/
def verifyAndFix {τ : Type} (tokenize : String → Except LexError τ)
    (ruleImpls : String → Option (String → τ → Nat → RuleOutcome))
    (configRules : List (String × Severity)) (filename source : String) : LintResult :=
  let v := verify tokenize ruleImpls configRules
  let r := fixLoop v 10 source false []
  let src := r.1
  let fixed := r.2.1
  let messages := if fixed then v src else r.2.2
  { filename := filename
    messages := messages
    errorCount := (messages.filter (fun m => m.severity == 2)).length
    warningCount := (messages.filter (fun m => m.severity == 1)).length
    fixableErrorCount := (messages.filter (fun m => m.severity == 2 && m.fix.isSome)).length
    fixableWarningCount := (messages.filter (fun m => m.severity == 1 && m.fix.isSome)).length
    source := source
    output := if fixed then some src else none }

/-! ## Message templating (`RuleContext._formatMessage`)

`template.replace(/\x7b\x7b\s*(\w+)\s*\x7d\x7d/g, (_, key) => data[key] ?? ...)`
is embedded as a left-to-right scanner: at each position, try to match the
pattern (greedy maximal munch is equivalent to the regex here, since word
characters, whitespace characters and braces are pairwise disjoint); on a
match, emit the replacement and continue past the match; otherwise copy one
character.  `data` is a key/value association list (a plain JS object).
JavaScript `\w` is `[A-Za-z0-9_]`; `\s` is modelled by its ASCII members. -/

/-- JavaScript regex `\w`: ASCII letters, digits, underscore. -/
def isWordChar (c : Char) : Bool := c.isAlphanum || c = '_'

/-- JavaScript regex `\s` (ASCII part): space, tab, LF, VT, FF, CR. -/
def isSpaceChar (c : Char) : Bool :=
  c = ' ' || c = '\t' || c = '\n' || c = '\x0b' || c = '\x0c' || c = '\r'

/-- Try to match `\x7b\x7b\s*(\w+)\s*\x7d\x7d` at the head of the list;
returns the captured key and the remainder after the match. -/
def matchPlaceholder : List Char → Option (List Char × List Char)
  | '\x7b' :: '\x7b' :: rest =>
    if (rest.dropWhile isSpaceChar).takeWhile isWordChar = [] then none
    else
      match ((rest.dropWhile isSpaceChar).dropWhile isWordChar).dropWhile isSpaceChar with
      | '\x7d' :: '\x7d' :: rest2 =>
        some ((rest.dropWhile isSpaceChar).takeWhile isWordChar, rest2)
      | _ => none
  | _ => none

/-- Global-replace scanner.  Fuel is an upper bound on the number of steps;
each step consumes at least one character, so `fuel = l.length` suffices
(see `replaceAux_congr`). -/
def replaceAux (data : List (List Char × List Char)) : Nat → List Char → List Char
  | 0, l => l
  | _ + 1, [] => []
  | fuel + 1, c :: cs =>
    match matchPlaceholder (c :: cs) with
    | some (key, rest) =>
      (match data.lookup key with
       | some v => v
       | none => '\x7b' :: '\x7b' :: (key ++ ['\x7d', '\x7d'])) ++ replaceAux data fuel rest
    | none => c :: replaceAux data fuel cs

/-- The global replace over a whole template. -/
def replaceTemplate (data : List (List Char × List Char)) (l : List Char) : List Char :=
  replaceAux data l.length l

/-- `RuleContext._formatMessage`: `if (!data) return template`, otherwise
the global regex replace, where an absent key re-emits the placeholder as
two braces, the key, and two closing braces (the template literal in the
source has no interior whitespace). -/
def formatMessage (template : List Char)
    (data : Option (List (List Char × List Char))) : List Char :=
  match data with
  | none => template
  | some d => replaceTemplate d template

/-! ## Source index (`source-code.ts`) -/

/-- `this.text.split(/\r?\n/)`: split at each `\n`, consuming an
immediately preceding `\r` with it; a lone `\r` is not a separator. -/
def splitLinesAux : List Char → List Char → List (List Char)
  | acc, [] => [acc.reverse]
  | acc, '\n' :: rest => acc.reverse :: splitLinesAux [] rest
  | acc, '\r' :: '\n' :: rest => acc.reverse :: splitLinesAux [] rest
  | acc, c :: rest => splitLinesAux (c :: acc) rest

/-- `SourceCode.lines`. -/
def splitLines (text : List Char) : List (List Char) :=
  splitLinesAux [] text

/-- The tail of `_computeLineStartIndices`: the indices just past each
`'\n'`. -/
def lineStartsAux : Nat → List Char → List Nat
  | _, [] => []
  | i, c :: rest =>
    if c = '\n' then (i + 1) :: lineStartsAux (i + 1) rest
    else lineStartsAux (i + 1) rest

/-- `SourceCode._computeLineStartIndices`: `[0]` plus one entry per
newline. -/
def lineStartIndices (text : List Char) : List Nat :=
  0 :: lineStartsAux 0 text

/-- `String.prototype.indexOf`: first index at which `needle` occurs in
`hay`, `-1` when absent (`-1` is why the result is `Int`). -/
def firstIndexOfAux (needle : List Char) : Nat → List Char → Int
  | i, [] => if needle.isPrefixOf ([] : List Char) then (i : Int) else -1
  | i, c :: t => if needle.isPrefixOf (c :: t) then (i : Int) else firstIndexOfAux needle (i + 1) t

/-- `hay.indexOf(needle)`. -/
def firstIndexOf (hay needle : List Char) : Int :=
  firstIndexOfAux needle 0 hay

/-- A `start`/`end` line-column pair (`loc` on tag/mustache/comment
tokens; lines 1-indexed, columns 0-indexed). -/
structure TokLoc where
  startLine : Nat
  startCol : Nat
  endLine : Nat
  endCol : Nat
deriving DecidableEq, Repr

/-- The token kinds distinguished by `SourceCode.getRange`: the
loc-bearing kinds (tag, escaped tag, the four mustache variants, comment),
and the line-based kinds (raw with its literal value, newline).  Children
of tags are irrelevant to `getRange` and omitted. -/
inductive EdgeToken where
  | tag (name : List Char) (loc : TokLoc)
  | escapedTag (name : List Char) (loc : TokLoc)
  | mustache (loc : TokLoc)
  | safeMustache (loc : TokLoc)
  | escapedMustache (loc : TokLoc)
  | escapedSafeMustache (loc : TokLoc)
  | comment (loc : TokLoc)
  | raw (line : Nat) (value : List Char)
  | newline (line : Nat)
deriving DecidableEq, Repr

/-- `SourceCode.getIndexFromLoc`: `line - 1 < 0` returns the column,
past-the-end lines clamp to the text length, otherwise line start plus
column. -/
def getIndexFromLoc (text : List Char) (line col : Nat) : Nat :=
  if line = 0 then col
  else if (lineStartIndices text).length ≤ line - 1 then text.length
  else (lineStartIndices text).getD (line - 1) 0 + col

/-- The delimiter-width adjustment subtracted from the start offset for
loc-bearing tokens (`getRange`): 2 for `mustache`/`e__mustache`, 3 for
`s__mustache`/`es__mustache`, `name.length + 2` for `tag`/`e__tag`,
0 otherwise (comments). -/
def startAdjustment : EdgeToken → Nat
  | .mustache _ | .escapedMustache _ => 2
  | .safeMustache _ | .escapedSafeMustache _ => 3
  | .tag name _ | .escapedTag name _ => name.length + 2
  | _ => 0

/-- `SourceCode.getRange`.  Results are `Int` pairs because the delimiter
adjustment is a plain JavaScript subtraction.  Raw tokens fall back to the
start of their line when `indexOf` misses (`Math.max(0, col)`), and yield
`null` only when the stated line is outside the source; newline tokens
point at the line's terminating position. -/
def getRange (text : List Char) : EdgeToken → Option (Int × Int)
  | .raw line value =>
    let lines := splitLines text
    if (line : Int) - 1 < 0 ∨ (lines.length : Int) ≤ (line : Int) - 1 then none
    else
      let lineIndex := line - 1
      let lineStart := (lineStartIndices text).getD lineIndex 0
      let lineText := lines.getD lineIndex []
      let col := firstIndexOf lineText value
      let start := lineStart + (max 0 col).toNat
      some ((start : Int), ((start + value.length : Nat) : Int))
  | .newline line =>
    if (line : Int) - 1 < 0 ∨ ((lineStartIndices text).length : Int) ≤ (line : Int) - 1 then none
    else
      let lineIndex := line - 1
      let lineStart := (lineStartIndices text).getD lineIndex 0
      let lineLength := ((splitLines text).getD lineIndex []).length
      some (((lineStart + lineLength : Nat) : Int), ((lineStart + lineLength + 1 : Nat) : Int))
  | tok =>
    match tok with
    | .tag _ loc | .escapedTag _ loc | .mustache loc | .safeMustache loc
    | .escapedMustache loc | .escapedSafeMustache loc | .comment loc =>
      let start := getIndexFromLoc text loc.startLine loc.startCol
      let stop := getIndexFromLoc text loc.endLine loc.endCol
      some ((start : Int) - (startAdjustment tok : Int), (stop : Int))
    | _ => none

/-! ## Lemmas about the overlap filter -/

/-- The keep-loop returns a sublist of its input. -/
theorem keepNonOverlapping_sublist :
    ∀ (l : List Fix) (e : Nat), List.Sublist (keepNonOverlapping e l) l := by
  intro l
  induction l with
  | nil => intro e; simp [keepNonOverlapping]
  | cons f fs ih =>
    intro e
    simp only [keepNonOverlapping]
    split
    · exact (ih f.range.2).cons₂ f
    · exact (ih e).cons f

/-- Every fix kept by the loop starts at or after the running `lastEnd`,
provided every input fix satisfies `start ≤ end`. -/
theorem mem_keepNonOverlapping_start :
    ∀ (l : List Fix) (e : Nat), (∀ f ∈ l, f.range.1 ≤ f.range.2) →
      ∀ g ∈ keepNonOverlapping e l, e ≤ g.range.1 := by
  intro l
  induction l with
  | nil => intro e _ g hg; simp [keepNonOverlapping] at hg
  | cons f fs ih =>
    intro e hwf g hg
    simp only [keepNonOverlapping] at hg
    split at hg
    · rcases List.mem_cons.mp hg with rfl | hg'
      · assumption
      · have h1 := ih f.range.2 (fun x hx => hwf x (List.mem_cons_of_mem _ hx)) g hg'
        have h2 : f.range.1 ≤ f.range.2 := hwf f (List.mem_cons_self _ _)
        omega
    · exact ih e (fun x hx => hwf x (List.mem_cons_of_mem _ hx)) g hg

/-- The kept fixes are pairwise non-overlapping (`end ≤` the later fix's
`start`), provided every input fix satisfies `start ≤ end`. -/
theorem keepNonOverlapping_pairwise :
    ∀ (l : List Fix) (e : Nat), (∀ f ∈ l, f.range.1 ≤ f.range.2) →
      List.Pairwise (fun a b : Fix => a.range.2 ≤ b.range.1) (keepNonOverlapping e l) := by
  intro l
  induction l with
  | nil => intro e _; simp [keepNonOverlapping]
  | cons f fs ih =>
    intro e hwf
    have hwf' : ∀ x ∈ fs, x.range.1 ≤ x.range.2 :=
      fun x hx => hwf x (List.mem_cons_of_mem _ hx)
    simp only [keepNonOverlapping]
    split
    · exact List.Pairwise.cons
        (fun g hg => mem_keepNonOverlapping_start fs f.range.2 hwf' g hg)
        (ih f.range.2 hwf')
    · exact ih e hwf'

/-- From sortedness by start and pairwise `end ≤ start` (in list order),
derive the claim's membership form. -/
theorem pairwise_nonoverlap_of_mem :
    ∀ (l : List Fix), List.Sorted fixLe l →
      List.Pairwise (fun a b : Fix => a.range.2 ≤ b.range.1) l →
      ∀ f1 ∈ l, ∀ f2 ∈ l, f1.range.1 < f2.range.1 → f1.range.2 ≤ f2.range.1 := by
  intro l
  induction l with
  | nil => intro _ _ f1 h1; simp at h1
  | cons x xs ih =>
    intro hs hp f1 h1 f2 h2 hlt
    rcases List.mem_cons.mp h1 with rfl | h1' <;> rcases List.mem_cons.mp h2 with rfl | h2'
    · omega
    · exact (List.pairwise_cons.mp hp).1 f2 h2'
    · have := List.rel_of_sorted_cons hs f1 h1'
      unfold fixLe at this
      omega
    · exact ih hs.of_cons (List.pairwise_cons.mp hp).2 f1 h1' f2 h2' hlt

/-- **C2.** Contract of `getNonOverlappingFixes`: when every input fix
satisfies `start ≤ end`, the returned list is sorted by start ascending,
pairwise non-overlapping in list order (`end ≤` the next start), and
consequently for every two returned fixes `f1`, `f2` with
`f1.start < f2.start` we have `f1.end ≤ f2.start`.  The keep-policy itself
("keep a fix exactly when its start is ≥ the end of the last kept fix,
first-wins by earliest start") is the definition `keepNonOverlapping` /
`getNonOverlappingFixes`, translated from `fixer.ts`. -/
theorem getNonOverlappingFixes_spec (fixes : List Fix)
    (hwf : ∀ f ∈ fixes, f.range.1 ≤ f.range.2) :
    List.Sorted fixLe (getNonOverlappingFixes fixes) ∧
    List.Pairwise (fun a b : Fix => a.range.2 ≤ b.range.1) (getNonOverlappingFixes fixes) ∧
    ∀ f1 ∈ getNonOverlappingFixes fixes, ∀ f2 ∈ getNonOverlappingFixes fixes,
      f1.range.1 < f2.range.1 → f1.range.2 ≤ f2.range.1 := by
  have hwfs : ∀ f ∈ List.insertionSort fixLe fixes, f.range.1 ≤ f.range.2 := by
    intro f hf
    exact hwf f ((List.perm_insertionSort fixLe fixes).mem_iff.mp hf)
  have hsorted := List.sorted_insertionSort fixLe fixes
  have hmain : List.Sorted fixLe (getNonOverlappingFixes fixes) ∧
      List.Pairwise (fun a b : Fix => a.range.2 ≤ b.range.1) (getNonOverlappingFixes fixes) := by
    unfold getNonOverlappingFixes
    cases hs : List.insertionSort fixLe fixes with
    | nil => simp
    | cons f fs =>
      rw [hs] at hsorted hwfs
      have hwf' : ∀ x ∈ fs, x.range.1 ≤ x.range.2 :=
        fun x hx => hwfs x (List.mem_cons_of_mem _ hx)
      constructor
      · exact List.Pairwise.sublist ((keepNonOverlapping_sublist fs f.range.2).cons₂ f) hsorted
      · refine List.Pairwise.cons ?_ (keepNonOverlapping_pairwise fs f.range.2 hwf')
        intro g hg
        have h1 := mem_keepNonOverlapping_start fs f.range.2 hwf' g hg
        have h2 : f.range.1 ≤ f.range.2 := hwfs f (List.mem_cons_self _ _)
        omega
  exact ⟨hmain.1, hmain.2,
    pairwise_nonoverlap_of_mem (getNonOverlappingFixes fixes) hmain.1 hmain.2⟩

/-- Witness for C2 at a concrete input. -/
theorem getNonOverlappingFixes_spec_witness :
    (∀ f ∈ [(⟨(5, 7), ['a']⟩ : Fix), ⟨(1, 3), ['b']⟩, ⟨(2, 6), ['c']⟩], f.range.1 ≤ f.range.2) ∧
    (List.Sorted fixLe
        (getNonOverlappingFixes [(⟨(5, 7), ['a']⟩ : Fix), ⟨(1, 3), ['b']⟩, ⟨(2, 6), ['c']⟩]) ∧
      List.Pairwise (fun a b : Fix => a.range.2 ≤ b.range.1)
        (getNonOverlappingFixes [(⟨(5, 7), ['a']⟩ : Fix), ⟨(1, 3), ['b']⟩, ⟨(2, 6), ['c']⟩]) ∧
      ∀ f1 ∈ getNonOverlappingFixes [(⟨(5, 7), ['a']⟩ : Fix), ⟨(1, 3), ['b']⟩, ⟨(2, 6), ['c']⟩],
        ∀ f2 ∈ getNonOverlappingFixes [(⟨(5, 7), ['a']⟩ : Fix), ⟨(1, 3), ['b']⟩, ⟨(2, 6), ['c']⟩],
          f1.range.1 < f2.range.1 → f1.range.2 ≤ f2.range.1) :=
  ⟨by decide, getNonOverlappingFixes_spec _ (by decide)⟩

/-- **C6 counterexample.**  The input list contains the pure insertion
`[2,2)` and the fix `[2,4)` (so `p = 2 < 4 = q`), with the replacement
first; the stable sort keeps that order, the replacement sets
`lastEnd = 4`, and the insertion (start `2 < 4`) is dropped — so the
insertion is *not* kept "regardless of order in the input list". -/
theorem getNonOverlappingFixes_insertion_dropped :
    getNonOverlappingFixes [(⟨(2, 4), ['X']⟩ : Fix), ⟨(2, 2), ['B']⟩] = [⟨(2, 4), ['X']⟩] ∧
    (⟨(2, 2), ['B']⟩ : Fix) ∉ getNonOverlappingFixes [(⟨(2, 4), ['X']⟩ : Fix), ⟨(2, 2), ['B']⟩] := by
  decide

/-- **C6 (amended).**  When the pure insertion `[p,p)` precedes the other
fix `[p,q)` in the input list, the stable sort keeps the insertion first
and both fixes are kept: the insertion's end `p` is `≤` the next start
`p`, i.e. they are adjacent, not overlapping. -/
theorem getNonOverlappingFixes_insertion_kept (p q : Nat) (s t : List Char) :
    getNonOverlappingFixes [(⟨(p, p), s⟩ : Fix), ⟨(p, q), t⟩] =
      [(⟨(p, p), s⟩ : Fix), ⟨(p, q), t⟩] := by
  unfold getNonOverlappingFixes
  simp [List.insertionSort, List.orderedInsert, fixLe, keepNonOverlapping]

/-- **C7.** Severity normalization: `"off"`/`"warn"`/`"error"` map to
0/1/2, numeric severities pass through, any unrecognized string maps to 0.
`normalizeSeverity` is a total Lean function, so it can never throw. -/
theorem normalizeSeverity_spec :
    normalizeSeverity (.str "off") = 0 ∧
    normalizeSeverity (.str "warn") = 1 ∧
    normalizeSeverity (.str "error") = 2 ∧
    (∀ n : Nat, normalizeSeverity (.num n) = n) ∧
    (∀ s : String, s ≠ "off" → s ≠ "warn" → s ≠ "error" → normalizeSeverity (.str s) = 0) := by
  refine ⟨rfl, rfl, rfl, fun n => rfl, fun s h1 h2 h3 => ?_⟩
  simp [normalizeSeverity, h1, h2, h3]

/-- Witness for C7 at a concrete unrecognized severity string. -/
theorem normalizeSeverity_spec_witness :
    normalizeSeverity (.str "loud") = 0 :=
  normalizeSeverity_spec.2.2.2.2 "loud" (by decide) (by decide) (by decide)

/-- **C4 counterexample.**  On a tokenizer throw, the single synthesized
diagnostic's rule id is `"edge-syntax-error"`, not `"syntax-error"` as the
claim states. -/
theorem verify_syntax_ruleId_counterexample :
    (verify (τ := Unit) (fun _ => .error {}) (fun _ => none) [] "x").map (fun m => m.ruleId) =
      ["edge-syntax-error"] ∧
    ("edge-syntax-error" : String) ≠ "syntax-error" := by
  exact ⟨rfl, by decide⟩

/-- **C4 (amended).**  Tokenization-failure short circuit: whenever the
tokenizer throws, `verify` returns exactly one diagnostic — rule id
`"edge-syntax-error"`, severity 2, at `err.line ?? 1` / `err.col ?? 0`,
message `err.message ?? 'Syntax error'` — and no configured rule runs
(`ruleImpls`/`configRules` are arbitrary and absent from the result). -/
theorem verify_tokenize_failure {τ : Type} (tokenize : String → Except LexError τ)
    (ruleImpls : String → Option (String → τ → Nat → RuleOutcome))
    (configRules : List (String × Severity)) (source : String) (err : LexError)
    (h : tokenize source = .error err) :
    verify tokenize ruleImpls configRules source =
      [{ ruleId := "edge-syntax-error", severity := 2,
         message := err.message.getD "Syntax error",
         line := err.line.getD 1, column := err.col.getD 0 }] := by
  unfold verify
  rw [h]
  rfl

/-- Witness for C4's amended theorem: a concrete tokenizer throw with
line/col information, and other rules configured at error severity. -/
theorem verify_tokenize_failure_witness :
    ((fun (_ : String) => (Except.error ⟨some "bad", some 3, some 7⟩ : Except LexError Unit)) "x" =
      Except.error ⟨some "bad", some 3, some 7⟩) ∧
    verify (τ := Unit) (fun _ => .error ⟨some "bad", some 3, some 7⟩)
        (fun _ => some (fun _ _ _ => ⟨[⟨"other", 2, "boom", 9, 9, none, none, none, none⟩], none⟩))
        [("other", .str "error")] "x" =
      [{ ruleId := "edge-syntax-error", severity := 2, message := "bad", line := 3, column := 7 }] :=
  ⟨rfl, verify_tokenize_failure _ _ _ _ ⟨some "bad", some 3, some 7⟩ rfl⟩

/-- **C5.** Sort invariant of `verify`: for every adjacent pair `(a, b)` of
the returned list, `a.line < b.line`, or `a.line = b.line` and
`a.column ≤ b.column`.  On the tokenizer-throw path the result is a
singleton; otherwise it is the stable insertion sort by `(line, column)`. -/
theorem verify_sorted {τ : Type} (tokenize : String → Except LexError τ)
    (ruleImpls : String → Option (String → τ → Nat → RuleOutcome))
    (configRules : List (String × Severity)) (source : String) :
    List.Chain' msgLe (verify tokenize ruleImpls configRules source) := by
  unfold verify
  cases tokenize source with
  | error err => simp
  | ok tokens => exact (List.sorted_insertionSort msgLe _).chain'

/-- **C1.** Idempotence of `verifyAndFix`: let `S'` be the first call's
`output` when defined and the original source otherwise.  The first call's
fix loop terminating by finding no fixable diagnostics means exactly that
`verify` at `S'` yields no message carrying a fix (hypothesis `h`; after a
cap-exhaustion exit the residual source may still carry fixable
diagnostics and `h` can fail).  Then a second `verifyAndFix` on `S'` runs
exactly one verify round: its `output` is `none` (undefined), its
`messages` are exactly `verify S'`, and its `source` is `S'` unchanged. -/
theorem verifyAndFix_idempotent {τ : Type} (tokenize : String → Except LexError τ)
    (ruleImpls : String → Option (String → τ → Nat → RuleOutcome))
    (configRules : List (String × Severity)) (filename filename2 source S' : String)
    (hS' : S' = (verifyAndFix tokenize ruleImpls configRules filename source).output.getD source)
    (h : (verify tokenize ruleImpls configRules S').filter (fun m => m.fix.isSome) = []) :
    (verifyAndFix tokenize ruleImpls configRules filename2 S').output = none ∧
    (verifyAndFix tokenize ruleImpls configRules filename2 S').messages =
      verify tokenize ruleImpls configRules S' ∧
    (verifyAndFix tokenize ruleImpls configRules filename2 S').source = S' := by
  have hloop : fixLoop (verify tokenize ruleImpls configRules) 10 S' false [] =
      (S', false, verify tokenize ruleImpls configRules S') := by
    show fixLoop (verify tokenize ruleImpls configRules) (9 + 1) S' false [] = _
    rw [fixLoop]
    simp [h]
  refine ⟨?_, ?_, ?_⟩ <;> simp [verifyAndFix, hloop]

/-- Witness for C1: with no rules configured, the first call leaves the
source unchanged and the hypotheses hold definitionally. -/
theorem verifyAndFix_idempotent_witness :
    ("s" = (verifyAndFix (τ := Unit) (fun _ => .ok ()) (fun _ => none) []
        "f" "s").output.getD "s") ∧
    ((verify (τ := Unit) (fun _ => .ok ()) (fun _ => none) [] "s").filter
        (fun m => m.fix.isSome) = []) ∧
    (verifyAndFix (τ := Unit) (fun _ => .ok ()) (fun _ => none) [] "g" "s").output = none :=
  ⟨rfl, rfl,
    (verifyAndFix_idempotent (τ := Unit) (fun _ => .ok ()) (fun _ => none) []
      "f" "g" "s" "s" rfl rfl).1⟩

/-- **C9.** Rule-exception isolation in `verify`: when the configured rule
`r` (at non-off severity) throws during create/traversal (its outcome's
`error` is `some e`), its contribution to the result is exactly the one
synthetic diagnostic `ruleErrorMessage r e` — the messages the rule
reported before the throw (`(impl source tokens _).reported`, left
completely unconstrained here) are discarded — while every other config
entry contributes its ordinary `ruleContribution`, unaffected.  The
conjuncts spell out the synthetic diagnostic: the rule's own id,
severity 2, line 1, column 0, and a message naming the rule. -/
theorem verify_rule_exception {τ : Type} (tokenize : String → Except LexError τ)
    (ruleImpls : String → Option (String → τ → Nat → RuleOutcome))
    (pre post : List (String × Severity)) (r : String) (cfg : Severity)
    (source : String) (tokens : τ) (impl : String → τ → Nat → RuleOutcome) (e : Option String)
    (htok : tokenize source = .ok tokens)
    (himpl : ruleImpls r = some impl)
    (hsev : normalizeSeverity cfg ≠ 0)
    (herr : (impl source tokens (normalizeSeverity cfg)).error = some e) :
    verify tokenize ruleImpls (pre ++ (r, cfg) :: post) source =
      sortMessages (pre.flatMap (ruleContribution ruleImpls source tokens) ++
        ruleErrorMessage r e :: post.flatMap (ruleContribution ruleImpls source tokens)) ∧
    (ruleErrorMessage r e).ruleId = r ∧
    (ruleErrorMessage r e).severity = 2 ∧
    (ruleErrorMessage r e).line = 1 ∧
    (ruleErrorMessage r e).column = 0 ∧
    (ruleErrorMessage r e).message =
      "Rule \"" ++ r ++ "\" threw an error: " ++ e.getD "Unknown error" := by
  refine ⟨?_, rfl, rfl, rfl, rfl, rfl⟩
  have hv : verify tokenize ruleImpls (pre ++ (r, cfg) :: post) source =
      sortMessages ((pre ++ (r, cfg) :: post).flatMap (ruleContribution ruleImpls source tokens)) := by
    unfold verify
    rw [htok]
  have hmid : ruleContribution ruleImpls source tokens (r, cfg) = [ruleErrorMessage r e] := by
    unfold ruleContribution
    rw [himpl]
    simp only [if_neg hsev]
    unfold runRuleOutcome
    rw [herr]
  rw [hv, List.flatMap_append, List.flatMap_cons, hmid]
  rfl

/-- Witness for C9: one healthy rule plus one throwing rule; the result is
the healthy rule's diagnostic plus the synthetic one, sorted. -/
theorem verify_rule_exception_witness :
    normalizeSeverity (Severity.str "error") ≠ 0 ∧
    verify (τ := Unit) (fun _ => Except.ok ())
        (fun id =>
          if id = "boom" then
            some (fun _ _ _ =>
              ⟨[⟨"boom", 2, "partial", 5, 5, none, none, none, none⟩], some (some "kaput")⟩)
          else if id = "ok" then
            some (fun _ _ _ => ⟨[⟨"ok", 1, "fine", 2, 0, none, none, none, none⟩], none⟩)
          else none)
        ([("ok", Severity.num 1)] ++ ("boom", Severity.str "error") :: []) "src" =
      [⟨"boom", 2, "Rule \"boom\" threw an error: kaput", 1, 0, none, none, none, none⟩,
       ⟨"ok", 1, "fine", 2, 0, none, none, none, none⟩] :=
  ⟨by decide,
    ((verify_rule_exception (fun _ => Except.ok ()) _ [("ok", Severity.num 1)] []
        "boom" (Severity.str "error") "src" () _ (some "kaput")
        rfl rfl (by decide) rfl).1).trans (by decide)⟩

/-- The spec's description of the merged replacement text, used as the
comparison point for C3: each fix's text in order, with the gap before
each fix backfilled from the original source text starting at the previous
fix's end. -/
def backfillJoin (sourceText : List Char) : Nat → List Fix → List Char
  | _, [] => []
  | e, f :: fs => sliceList sourceText e f.range.1 ++ f.text ++ backfillJoin sourceText f.range.2 fs

/-- An empty slice when the window is not ahead of the cursor. -/
theorem sliceList_of_le (l : List Char) {a b : Nat} (h : b ≤ a) : sliceList l a b = [] := by
  simp [sliceList, Nat.sub_eq_zero_of_le h]

/-- The merge loop computes exactly the backfill join (the `if` guarding
the gap slice is immaterial because a non-positive gap slices to `[]`). -/
theorem mergeLoop_eq_backfillJoin (t : List Char) :
    ∀ (l : List Fix) (e : Nat) (acc : List Char),
      mergeLoop t e acc l = acc ++ backfillJoin t e l := by
  intro l
  induction l with
  | nil => intro e acc; simp [mergeLoop, backfillJoin]
  | cons f fs ih =>
    intro e acc
    simp only [mergeLoop, backfillJoin]
    split
    · rw [ih]
      simp [List.append_assoc]
    · rw [ih]
      rw [sliceList_of_le t (by omega)]
      simp

/-- Every element of `getLastD l x` is drawn from `x :: l`. -/
theorem getLastD_mem : ∀ (l : List Fix) (x : Fix), List.getLastD l x ∈ x :: l := by
  intro l
  induction l with
  | nil => intro x; simp
  | cons y l' ih =>
    intro x
    rw [List.getLastD_cons]
    exact List.mem_cons_of_mem x (ih y)

/-- In a pairwise-disjoint, well-formed fix list, every end is at most the
last fix's end. -/
theorem ends_le_getLastD :
    ∀ (l : List Fix) (x : Fix),
      List.Pairwise (fun a b : Fix => a.range.2 ≤ b.range.1) (x :: l) →
      (∀ g ∈ x :: l, g.range.1 ≤ g.range.2) →
      ∀ g ∈ x :: l, g.range.2 ≤ (List.getLastD l x).range.2 := by
  intro l
  induction l with
  | nil =>
    intro x _ _ g hg
    rcases List.mem_cons.mp hg with rfl | hg'
    · simp
    · simp at hg'
  | cons y l' ih =>
    intro x hp hwf g hg
    rw [List.getLastD_cons]
    have hp' := List.pairwise_cons.mp hp
    have hwf' : ∀ g ∈ y :: l', g.range.1 ≤ g.range.2 :=
      fun g hg => hwf g (List.mem_cons_of_mem _ hg)
    rcases List.mem_cons.mp hg with rfl | hg'
    · have hlast := getLastD_mem l' y
      have h1 : g.range.2 ≤ (List.getLastD l' y).range.1 := hp'.1 _ hlast
      have h2 : (List.getLastD l' y).range.1 ≤ (List.getLastD l' y).range.2 := hwf' _ hlast
      omega
    · exact ih y hp'.2 hwf' g hg'

/-- **C3.** Merge of one diagnostic's multiple fixes
(`RuleContext._mergeFixesForMessage`): for two or more mutually disjoint
fixes (given in sorted order, which the method's stable sort then leaves
unchanged), the merged fix spans from the first fix's start (the earliest
start, by sortedness) to the last fix's end (the latest end, by
disjointness — the second conjunct), and its text is the fixes' texts with
each gap backfilled from the original source (`backfillJoin`).  The third
conjunct is the claim's concrete instance: `[2,4) → "A"` plus an insertion
of `"B"` at offset 10 merge, on any sufficiently long text, to range
`[2,10)` with text `"A" ++ text.slice(4,10) ++ "B"`. -/
theorem mergeFixesForMessage_spec (t : List Char) (f1 f2 : Fix) (rest : List Fix)
    (hsorted : List.Sorted fixLe (f1 :: f2 :: rest))
    (hdisj : List.Pairwise (fun a b : Fix => a.range.2 ≤ b.range.1) (f1 :: f2 :: rest))
    (hwf : ∀ g ∈ f1 :: f2 :: rest, g.range.1 ≤ g.range.2) :
    mergeFixesForMessage t (f1 :: f2 :: rest) =
      some { range := (f1.range.1, (List.getLastD (f2 :: rest) f1).range.2),
             text := backfillJoin t f1.range.1 (f1 :: f2 :: rest) } ∧
    (∀ g ∈ f1 :: f2 :: rest,
      f1.range.1 ≤ g.range.1 ∧ g.range.2 ≤ (List.getLastD (f2 :: rest) f1).range.2) ∧
    (∀ text : List Char, 10 ≤ text.length →
      mergeFixesForMessage text [(⟨(2, 4), ['A']⟩ : Fix), ⟨(10, 10), ['B']⟩] =
        some ⟨(2, 10), 'A' :: (sliceList text 4 10 ++ ['B'])⟩) := by
  refine ⟨?_, ?_, ?_⟩
  · show ((match List.insertionSort fixLe (f1 :: f2 :: rest) with
      | [] => none
      | first :: others =>
        some { range := (first.range.1, (List.getLastD others first).range.2),
               text := mergeLoop t first.range.1 [] (first :: others) } : Option Fix)) = _
    rw [hsorted.insertionSort_eq]
    simp [mergeLoop_eq_backfillJoin]
  · intro g hg
    constructor
    · rcases List.mem_cons.mp hg with rfl | hg'
      · exact Nat.le_refl _
      · exact List.rel_of_sorted_cons hsorted g hg'
    · exact ends_le_getLastD (f2 :: rest) f1 hdisj hwf g hg
  · intro text hlen
    show ((match List.insertionSort fixLe
        [(⟨(2, 4), ['A']⟩ : Fix), ⟨(10, 10), ['B']⟩] with
      | [] => none
      | first :: others =>
        some { range := (first.range.1, (List.getLastD others first).range.2),
               text := mergeLoop text first.range.1 [] (first :: others) } : Option Fix)) = _
    have hs : List.insertionSort fixLe [(⟨(2, 4), ['A']⟩ : Fix), ⟨(10, 10), ['B']⟩] =
        [(⟨(2, 4), ['A']⟩ : Fix), ⟨(10, 10), ['B']⟩] := by
      simp [List.insertionSort, List.orderedInsert, fixLe]
    rw [hs]
    simp [mergeLoop_eq_backfillJoin, backfillJoin, sliceList]

/-- Witness for C3 at the claim's concrete inputs, over the 12-character
text `abcdefghijkl` (so the backfilled gap is `efghij`). -/
theorem mergeFixesForMessage_spec_witness :
    List.Sorted fixLe [(⟨(2, 4), ['A']⟩ : Fix), ⟨(10, 10), ['B']⟩] ∧
    List.Pairwise (fun a b : Fix => a.range.2 ≤ b.range.1)
      [(⟨(2, 4), ['A']⟩ : Fix), ⟨(10, 10), ['B']⟩] ∧
    (∀ g ∈ [(⟨(2, 4), ['A']⟩ : Fix), ⟨(10, 10), ['B']⟩], g.range.1 ≤ g.range.2) ∧
    mergeFixesForMessage "abcdefghijkl".toList
        [(⟨(2, 4), ['A']⟩ : Fix), ⟨(10, 10), ['B']⟩] =
      some ⟨(2, 10), "AefghijB".toList⟩ :=
  ⟨by decide, by decide, by decide,
    ((mergeFixesForMessage_spec "abcdefghijkl".toList ⟨(2, 4), ['A']⟩ ⟨(10, 10), ['B']⟩ []
      (by decide) (by decide) (by decide)).1).trans (by decide)⟩

/-- **C10.** `getRange` on a raw token: when the token's 1-indexed line
refers to an existing source line, the result is never `none` — and when
the token's value does not occur in that line (`indexOf` returns `-1`,
clamped by `Math.max(0, col)`), the range falls back to
`[lineStart, lineStart + value.length]`.  `none` is returned exactly when
the stated line lies outside the source (line 0 or past the last line). -/
theorem getRange_raw_spec (text : List Char) (line : Nat) (value : List Char) :
    (1 ≤ line → line ≤ (splitLines text).length →
      (getRange text (.raw line value)).isSome = true ∧
      (firstIndexOf ((splitLines text).getD (line - 1) []) value = -1 →
        getRange text (.raw line value) =
          some ((((lineStartIndices text).getD (line - 1) 0 : Nat) : Int),
            (((lineStartIndices text).getD (line - 1) 0 + value.length : Nat) : Int)))) ∧
    ((line = 0 ∨ (splitLines text).length < line) → getRange text (.raw line value) = none) := by
  constructor
  · intro h1 h2
    have hcond : ¬((line : Int) - 1 < 0 ∨ (((splitLines text).length : Int) ≤ (line : Int) - 1)) := by
      omega
    constructor
    · simp [getRange, hcond]
      omega
    · intro hidx
      have hidx' : firstIndexOf ((splitLines text)[line - 1]?.getD []) value = -1 := by
        rw [← List.getD_eq_getElem?_getD]
        exact hidx
      simp [getRange, hcond, hidx']
      omega
  · intro h
    have hcond : (line : Int) - 1 < 0 ∨ (((splitLines text).length : Int) ≤ (line : Int) - 1) := by
      omega
    simp [getRange, hcond]
    omega

/-- Witness for C10: source `ab\ncd`, raw token on line 2 with value `zz`
which does not occur in `cd`; the range falls back to `[3, 5]`
(`lineStart = 3`, `value.length = 2`). -/
theorem getRange_raw_spec_witness :
    (1 ≤ 2 ∧ 2 ≤ (splitLines "ab\ncd".toList).length) ∧
    firstIndexOf ((splitLines "ab\ncd".toList).getD (2 - 1) []) "zz".toList = -1 ∧
    getRange "ab\ncd".toList (.raw 2 "zz".toList) = some (3, 5) :=
  ⟨by decide, by decide,
    (((getRange_raw_spec "ab\ncd".toList 2 "zz".toList).1 (by decide) (by decide)).2
      (by decide)).trans (by decide)⟩

/-! ## Lemmas about the template substitution -/

/-- Whitespace characters are exactly the six ASCII ones. -/
theorem space_chars {c : Char} (h : isSpaceChar c = true) :
    c = ' ' ∨ c = '\t' ∨ c = '\n' ∨ c = '\x0b' ∨ c = '\x0c' ∨ c = '\r' := by
  simp [isSpaceChar] at h
  tauto

/-- A whitespace character is not a word character. -/
theorem space_not_word {c : Char} (h : isSpaceChar c = true) : isWordChar c = false := by
  rcases space_chars h with rfl | rfl | rfl | rfl | rfl | rfl <;> decide

/-- A word character is not a whitespace character. -/
theorem word_not_space {c : Char} (h : isWordChar c = true) : isSpaceChar c = false := by
  cases hs : isSpaceChar c
  · rfl
  · rw [space_not_word hs] at h
    cases h

/-- `dropWhile` passes over a prefix whose characters all satisfy `p`. -/
theorem dropWhile_append_all {p : Char → Bool} :
    ∀ (l1 l2 : List Char), (∀ c ∈ l1, p c = true) →
      (l1 ++ l2).dropWhile p = l2.dropWhile p := by
  intro l1
  induction l1 with
  | nil => simp
  | cons c t ih =>
    intro l2 h
    have hc : p c = true := h c (List.mem_cons_self _ _)
    simp only [List.cons_append, List.dropWhile_cons, hc, if_pos]
    exact ih l2 (fun x hx => h x (List.mem_cons_of_mem _ hx))

/-- `takeWhile`/`dropWhile` split exactly at a prefix of `p`-characters
followed by a non-`p` head. -/
theorem takeWhile_dropWhile_append {p : Char → Bool} :
    ∀ (l1 l2 : List Char), (∀ c ∈ l1, p c = true) →
      (∀ c t, l2 = c :: t → p c = false) →
      (l1 ++ l2).takeWhile p = l1 ∧ (l1 ++ l2).dropWhile p = l2 := by
  intro l1
  induction l1 with
  | nil =>
    intro l2 _ h2
    cases l2 with
    | nil => simp
    | cons c t => simp [List.takeWhile_cons, List.dropWhile_cons, h2 c t rfl]
  | cons c t ih =>
    intro l2 h1 h2
    have hc : p c = true := h1 c (List.mem_cons_self _ _)
    have hrec := ih l2 (fun x hx => h1 x (List.mem_cons_of_mem _ hx)) h2
    simp [List.takeWhile_cons, List.dropWhile_cons, hc, hrec.1, hrec.2]

/-- The placeholder matcher does not fire at a character other than a
brace. -/
theorem matchPlaceholder_cons_ne {c : Char} (l : List Char) (h : c ≠ '\x7b') :
    matchPlaceholder (c :: l) = none := by
  unfold matchPlaceholder
  split
  · next heq =>
    injection heq with h1 _
    exact absurd h1 h
  · rfl

/-- A successful placeholder match consumes at least five characters. -/
theorem matchPlaceholder_length : ∀ {l key rest : List Char},
    matchPlaceholder l = some (key, rest) → rest.length < l.length := by
  intro l key rest h
  unfold matchPlaceholder at h
  split at h
  case h_1 r0 =>
    split at h
    · exact absurd h (by simp)
    · next hk0 =>
      split at h
      · next rest2 heq =>
        injection h with h1
        injection h1 with hkey hrest
        have e1 : (r0.takeWhile isSpaceChar).length + (r0.dropWhile isSpaceChar).length
            = r0.length := by
          rw [← List.length_append, List.takeWhile_append_dropWhile]
        have e2 : ((r0.dropWhile isSpaceChar).takeWhile isWordChar).length +
            ((r0.dropWhile isSpaceChar).dropWhile isWordChar).length
            = (r0.dropWhile isSpaceChar).length := by
          rw [← List.length_append, List.takeWhile_append_dropWhile]
        have e3 : (((r0.dropWhile isSpaceChar).dropWhile isWordChar).takeWhile
              isSpaceChar).length +
            (((r0.dropWhile isSpaceChar).dropWhile isWordChar).dropWhile isSpaceChar).length
            = ((r0.dropWhile isSpaceChar).dropWhile isWordChar).length := by
          rw [← List.length_append, List.takeWhile_append_dropWhile]
        have e4 : (((r0.dropWhile isSpaceChar).dropWhile isWordChar).dropWhile
            isSpaceChar).length = rest.length + 2 := by
          rw [heq, ← hrest]
          rfl
        have e5 : 1 ≤ ((r0.dropWhile isSpaceChar).takeWhile isWordChar).length := by
          cases hcase : (r0.dropWhile isSpaceChar).takeWhile isWordChar with
          | nil => exact absurd hcase hk0
          | cons x xs => simp
        simp only [List.length_cons]
        omega
      · exact absurd h (by simp)
  case h_2 => exact absurd h (by simp)

/-- `replaceAux` maps the empty list to itself at any fuel. -/
theorem replaceAux_nil (data : List (List Char × List Char)) :
    ∀ f, replaceAux data f [] = [] := by
  intro f
  cases f <;> rfl

/-- Fuel irrelevance: any fuel at least the input length gives the same
result. -/
theorem replaceAux_congr (data : List (List Char × List Char)) :
    ∀ (n : Nat) (l : List Char) (f1 f2 : Nat),
      l.length ≤ n → l.length ≤ f1 → l.length ≤ f2 →
      replaceAux data f1 l = replaceAux data f2 l := by
  intro n
  induction n with
  | zero =>
    intro l f1 f2 hn _ _
    have hl : l = [] := List.eq_nil_of_length_eq_zero (Nat.le_zero.mp hn)
    subst hl
    rw [replaceAux_nil, replaceAux_nil]
  | succ n ih =>
    intro l f1 f2 hn h1 h2
    cases l with
    | nil => rw [replaceAux_nil, replaceAux_nil]
    | cons c cs =>
      simp only [List.length_cons] at hn h1 h2
      cases f1 with
      | zero => omega
      | succ a =>
        cases f2 with
        | zero => omega
        | succ b =>
          cases hm : matchPlaceholder (c :: cs) with
          | none =>
            simp only [replaceAux, hm]
            rw [ih cs a b (by omega) (by omega) (by omega)]
          | some kr =>
            obtain ⟨key, rest⟩ := kr
            have hlen := matchPlaceholder_length hm
            simp only [List.length_cons] at hlen
            simp only [replaceAux, hm]
            rw [ih rest a b (by omega) (by omega) (by omega)]

/-- A brace-free prefix is copied verbatim by the scanner. -/
theorem replaceAux_pre (data : List (List Char × List Char)) :
    ∀ (pre l : List Char), (∀ c ∈ pre, c ≠ '\x7b') →
      replaceAux data (pre ++ l).length (pre ++ l) = pre ++ replaceAux data l.length l := by
  intro pre
  induction pre with
  | nil => simp
  | cons c p ih =>
    intro l h
    have hc : c ≠ '\x7b' := h c (List.mem_cons_self _ _)
    simp only [List.cons_append, List.length_cons, replaceAux,
      matchPlaceholder_cons_ne _ hc, List.append_eq]
    rw [ih l (fun x hx => h x (List.mem_cons_of_mem _ hx))]

/-- Computation of the matcher on a well-formed placeholder. -/
theorem matchPlaceholder_spec (ws1 key ws2 post : List Char)
    (hw1 : ∀ c ∈ ws1, isSpaceChar c = true)
    (hk0 : key ≠ [])
    (hk : ∀ c ∈ key, isWordChar c = true)
    (hw2 : ∀ c ∈ ws2, isSpaceChar c = true) :
    matchPlaceholder ('\x7b' :: '\x7b' :: (ws1 ++ (key ++ (ws2 ++ '\x7d' :: '\x7d' :: post)))) =
      some (key, post) := by
  obtain ⟨k0, ktail, rfl⟩ : ∃ k0 kt, key = k0 :: kt := by
    cases key with
    | nil => exact absurd rfl hk0
    | cons k0 kt => exact ⟨k0, kt, rfl⟩
  have hkword : ∀ c ∈ k0 :: ktail, isWordChar c = true := hk
  have hsplit : ((k0 :: ktail) ++ (ws2 ++ '\x7d' :: '\x7d' :: post)).takeWhile isWordChar
        = k0 :: ktail ∧
      ((k0 :: ktail) ++ (ws2 ++ '\x7d' :: '\x7d' :: post)).dropWhile isWordChar
        = ws2 ++ '\x7d' :: '\x7d' :: post := by
    refine takeWhile_dropWhile_append _ _ hkword ?_
    intro c t heq
    cases ws2 with
    | nil =>
      simp only [List.nil_append] at heq
      injection heq with h1 _
      rw [← h1]
      decide
    | cons w wt =>
      simp only [List.cons_append] at heq
      injection heq with h1 _
      rw [← h1]
      exact space_not_word (hw2 w (List.mem_cons_self _ _))
  have hdrop1 : (ws1 ++ ((k0 :: ktail) ++ (ws2 ++ '\x7d' :: '\x7d' :: post))).dropWhile
      isSpaceChar = (k0 :: ktail) ++ (ws2 ++ '\x7d' :: '\x7d' :: post) := by
    rw [dropWhile_append_all _ _ hw1]
    have hns : isSpaceChar k0 = false :=
      word_not_space (hkword k0 (List.mem_cons_self _ _))
    simp [List.dropWhile_cons, hns]
  have hdrop2 : (ws2 ++ '\x7d' :: '\x7d' :: post).dropWhile isSpaceChar =
      '\x7d' :: '\x7d' :: post := by
    rw [dropWhile_append_all _ _ hw2]
    have hbr : isSpaceChar '\x7d' = false := by decide
    simp [List.dropWhile_cons, hbr]
  simp only [matchPlaceholder]
  rw [hdrop1, hsplit.1, hsplit.2, hdrop2]
  simp

/-- **C8 counterexample.**  With a (present but empty) data map, the
placeholder `\x7b\x7b x \x7d\x7d` whose key is absent is re-emitted as
`\x7b\x7bx\x7d\x7d` — its interior whitespace is dropped — so it is not
left verbatim in the resolved message. -/
theorem formatMessage_whitespace_counterexample :
    formatMessage "a \x7b\x7b x \x7d\x7d".toList (some []) = "a \x7b\x7bx\x7d\x7d".toList ∧
    formatMessage "a \x7b\x7b x \x7d\x7d".toList (some []) ≠ "a \x7b\x7b x \x7d\x7d".toList := by
  decide

/-- **C8 (amended).**  Message template substitution: with no data map the
template is returned unchanged (first conjunct).  With a data map, a
placeholder — two opening braces, optional whitespace, a non-empty word
key, optional whitespace, two closing braces — whose key is present is
replaced by the mapped value; a placeholder whose key is absent is
re-emitted in the *normalized* form of two opening braces, the key and two
closing braces (interior whitespace dropped), not character-for-character
verbatim; scanning then continues after the placeholder (so every
placeholder of the template is processed the same way).  The functions are
total, so substitution never throws. -/
theorem formatMessage_spec :
    (∀ t, formatMessage t none = t) ∧
    ∀ (pre ws1 key ws2 post : List Char) (data : List (List Char × List Char)),
      (∀ c ∈ pre, c ≠ '\x7b') →
      (∀ c ∈ ws1, isSpaceChar c = true) →
      (∀ c ∈ ws2, isSpaceChar c = true) →
      key ≠ [] →
      (∀ c ∈ key, isWordChar c = true) →
      formatMessage
          (pre ++ '\x7b' :: '\x7b' :: (ws1 ++ (key ++ (ws2 ++ '\x7d' :: '\x7d' :: post))))
          (some data) =
        pre ++ ((match data.lookup key with
                 | some v => v
                 | none => '\x7b' :: '\x7b' :: (key ++ ['\x7d', '\x7d'])) ++
          replaceTemplate data post) := by
  refine ⟨fun t => rfl, ?_⟩
  intro pre ws1 key ws2 post data hpre hw1 hw2 hk0 hk
  have hm := matchPlaceholder_spec ws1 key ws2 post hw1 hk0 hk hw2
  show replaceTemplate data _ = _
  unfold replaceTemplate
  rw [replaceAux_pre data pre _ hpre]
  congr 1
  simp only [List.length_cons, replaceAux, hm]
  congr 1
  refine replaceAux_congr data
    ('\x7b' :: (ws1 ++ (key ++ (ws2 ++ '\x7d' :: '\x7d' :: post)))).length post _ _
    ?_ ?_ (Nat.le_refl _)
  · simp only [List.length_append, List.length_cons]
    omega
  · simp only [List.length_append, List.length_cons]
    omega

/-- Witness for C8's amended theorem: key `x` present in the data map, a
second placeholder with an absent key `y` in the continuation. -/
theorem formatMessage_spec_witness :
    (∀ c ∈ "a ".toList, c ≠ '\x7b') ∧
    formatMessage "a \x7b\x7b x \x7d\x7d-\x7b\x7by\x7d\x7d".toList
        (some [("x".toList, "V".toList)]) =
      "a ".toList ++ ("V".toList ++ replaceTemplate [("x".toList, "V".toList)]
        "-\x7b\x7by\x7d\x7d".toList) :=
  ⟨by decide,
    formatMessage_spec.2 "a ".toList [' '] "x".toList [' '] "-\x7b\x7by\x7d\x7d".toList
      [("x".toList, "V".toList)] (by decide) (by decide) (by decide) (by decide) (by decide)⟩

end EdgeLint
